import Mathlib

/-!
Verification of `controllers/pkg/resources/resources.go` (sealos).

Shallow embedding conventions:

* Go strings are embedded as `List Char`; the helper `str` turns a Lean
  string literal into that representation.  The empty Go string is `[]`.
* `k8s.io/apimachinery` quantities are embedded by the only observation the
  code makes of them, their milli-value (`Quantity.milli : Int`).  A Go
  `resource.Quantity{}` zero value (never produced by parsing) is embedded
  as `none` in fields of type `Option Quantity`.
* Go maps built by repeated assignment are embedded as functions
  `key -> Option value` built by folding `mapInsert` over the insertion
  sequence; a missing key yields `none`, and Go's zero-value-on-miss read
  is made explicit with `Option.getD` at the single place the code uses it.
* `crypto.DecryptInt64` and `resource.MustParse` live outside the given
  sources, so functions that call them take them as parameters
  (`dec : List Char → Option Int`, `parse : List Char → Quantity`);
  `mustParse` below instantiates `parse` for the two unit strings the
  default table uses.
* Machine integers are embedded as `Int`/`Nat`; overflow is modelled
  explicitly where it matters (`goInt64`).
-/

/-- Embed a Lean string literal as the `List Char` representation used for
Go strings throughout this file. -/

def str (s : String) : List Char := s.data

/-- Embedding of `resource.Quantity` by its milli-value, the only
observation `resources.go` makes of a quantity (`MilliValue()`). -/

structure Quantity where
  milli : Int
deriving DecidableEq

/-- Embedding of the Go struct `PropertyType` (resources.go). The
`Unit resource.Quantity` field is `Option Quantity`: `none` stands for the
Go zero value `resource.Quantity{}`. -/

structure PropertyType where
  Name : List Char
  Alias : List Char
  Enum : Nat
  PriceType : List Char
  UnitPrice : Int
  EncryptUnitPrice : List Char
  Unit : Option Quantity
  UnitString : List Char
  UnitPeriod : List Char
deriving DecidableEq

/-- The Go zero value `PropertyType{}`: all strings empty, numbers zero,
unit quantity unset.  Go map reads on a missing key produce this value. -/

def zeroPropertyType : PropertyType :=
  { Name := [], Alias := [], Enum := 0, PriceType := [], UnitPrice := 0
  , EncryptUnitPrice := [], Unit := none, UnitString := [], UnitPeriod := [] }

/-- Embedding of `PropertyTypeLS`: the list plus the two indices built by
`newPropertyTypeLS`.  The Go maps are embedded as lookup functions. -/

structure PropertyTypeLS where
  Types : List PropertyType
  StringMap : List Char → Option PropertyType
  EnumMap : Nat → Option PropertyType

/-- One Go map assignment `m[k] = v`, embedded functionally. -/

def mapInsert {α β : Type} [DecidableEq α] (m : α → Option β) (k : α) (v : β) :
    α → Option β :=
  fun x => if x = k then some v else m x

/-- Embedding of `DefaultPropertyTypeList` (resources.go): the built-in default price
table (cpu=67 per 1m, memory=33 per 1Mi, storage=2 per 1Mi, network=781 per
1Mi). -/

def DefaultPropertyTypeList : List PropertyType :=
  [ { zeroPropertyType with
        Name := str "cpu", Enum := 0, PriceType := str "AVG"
      , UnitPrice := 67, UnitString := str "1m" }
  , { zeroPropertyType with
        Name := str "memory", Enum := 1, PriceType := str "AVG"
      , UnitPrice := 33, UnitString := str "1Mi" }
  , { zeroPropertyType with
        Name := str "storage", Enum := 2, PriceType := str "AVG"
      , UnitPrice := 2, UnitString := str "1Mi" }
  , { zeroPropertyType with
        Name := str "network", Enum := 3, PriceType := str "AVG"
      , UnitPrice := 781, UnitString := str "1Mi" } ]

/-- Models `resource.MustParse` (k8s apimachinery, outside the given
sources) on the unit strings used by the default table: the milli-value of
`1m` is `1` and of `1Mi` is `2^20 * 1000`.  Other strings are irrelevant to
every claim (registry-construction claims are proved for an arbitrary
`parse` function). -/

def mustParse (s : List Char) : Quantity :=
  if s = str "1m" then { milli := 1 }
  else if s = str "1Mi" then { milli := 2 ^ 20 * 1000 }
  else { milli := 0 }

/-- The body of the `newPropertyTypeLS` loop acting on one entry: parse
`UnitString` when the unit quantity is still the zero value and the string
is non-empty, otherwise leave the entry untouched. -/

def parseUnitEntry (parse : List Char → Quantity) (t : PropertyType) : PropertyType :=
  if t.Unit = none ∧ t.UnitString ≠ [] then
    { t with Unit := some (parse t.UnitString) }
  else t

/-- Embedding of `newPropertyTypeLS` (resources.go).  The Go loop first
patches entry `i` in place (`parseUnitEntry`) and then inserts the patched
entry into both maps; since the patch of entry `i` only affects entry `i`,
this equals mapping the patch over the list and then folding the two
insertions.  `ls.Types` aliases the patched slice, hence `Types := ts`. -/

def newPropertyTypeLS (parse : List Char → Quantity) (types : List PropertyType) :
    PropertyTypeLS :=
  let ts := types.map (parseUnitEntry parse)
  { Types := ts
  , StringMap := ts.foldl (fun m t => mapInsert m t.Name t) fun _ => none
  , EnumMap := ts.foldl (fun m t => mapInsert m t.Enum t) fun _ => none }

/-- Embedding of `DefaultPropertyTypeLS = newPropertyTypeLS(DefaultPropertyTypeList)`. -/

def DefaultPropertyTypeLS : PropertyTypeLS :=
  newPropertyTypeLS mustParse DefaultPropertyTypeList

/-- Embedding of `decryptPrice` (resources.go): walk the list; an entry with
empty ciphertext, or one the decryption primitive rejects, aborts the walk
with an error; otherwise every entry's `UnitPrice` is replaced by its
decrypted value.  The decryption primitive `crypto.DecryptInt64` is the
parameter `dec` (`none` = error). -/

def decryptPrice (dec : List Char → Option Int) :
    List PropertyType → Except (List Char) (List PropertyType)
  | [] => .ok []
  | t :: ts =>
    if t.EncryptUnitPrice = [] then
      .error (str "encrypt unit price is empty" ++ t.Name)
    else
      match dec t.EncryptUnitPrice with
      | none => .error (str "failed to decrypt unit price" ++ t.Name)
      | some price =>
        match decryptPrice dec ts with
        | .error e => .error e
        | .ok ts2 => .ok ({ t with UnitPrice := price } :: ts2)

/-- Embedding of `NewPropertyTypeLS` (resources.go): decrypt every price; on
any failure fall back to the built-in default list. -/

def NewPropertyTypeLS (dec : List Char → Option Int)
    (parse : List Char → Quantity) (types : List PropertyType) : PropertyTypeLS :=
  match decryptPrice dec types with
  | .error _ => newPropertyTypeLS parse DefaultPropertyTypeList
  | .ok ts => newPropertyTypeLS parse ts

/-- Embedding of `ConvertEnumUsedToString` (resources.go).  The enum-keyed
Go map is embedded as an association list (one entry per key); the Go read
`DefaultPropertyTypeLS.EnumMap[k]` yields the zero value on a missing key,
hence the `Option.getD zeroPropertyType`. -/

def ConvertEnumUsedToString (costs : List (Nat × Int)) : List Char → Option Int :=
  costs.foldl
    (fun m p =>
      mapInsert m ((DefaultPropertyTypeLS.EnumMap p.1).getD zeroPropertyType).Name p.2)
    fun _ => none

/-- A list with two entries sharing enumeration id 0 but distinct names. -/

def dupEnumList : List PropertyType :=
  [ { zeroPropertyType with Name := str "a", Enum := 0 }
  , { zeroPropertyType with Name := str "b", Enum := 0 } ]

/-- The cpu entry of the built default registry (unit `1m` parsed). -/

def cpuDefaultPT : PropertyType :=
  { zeroPropertyType with
      Name := str "cpu", Enum := 0, PriceType := str "AVG",
      UnitPrice := 67, UnitString := str "1m", Unit := some { milli := 1 } }

/-- The memory entry of the built default registry (unit `1Mi` parsed). -/

def memoryDefaultPT : PropertyType :=
  { zeroPropertyType with
      Name := str "memory", Enum := 1, PriceType := str "AVG",
      UnitPrice := 33, UnitString := str "1Mi", Unit := some { milli := 2 ^ 20 * 1000 } }

/-- The storage entry of the built default registry (unit `1Mi` parsed). -/

def storageDefaultPT : PropertyType :=
  { zeroPropertyType with
      Name := str "storage", Enum := 2, PriceType := str "AVG",
      UnitPrice := 2, UnitString := str "1Mi", Unit := some { milli := 2 ^ 20 * 1000 } }

/-- The network entry of the built default registry (unit `1Mi` parsed). -/

def networkDefaultPT : PropertyType :=
  { zeroPropertyType with
      Name := str "network", Enum := 3, PriceType := str "AVG",
      UnitPrice := 781, UnitString := str "1Mi", Unit := some { milli := 2 ^ 20 * 1000 } }

/-- Modelled from the spec: the billing type enum `accountv1.Type`
(`controllers/account/api/v1`, outside the given sources).  The spec only
distinguishes consumption from transfer ("a billing type (consumption vs.
transfer, etc.)"); further variants are collapsed into `OtherType`. -/

inductive AccountType where
  | Consumption
  | TransferType
  | OtherType
deriving DecidableEq

/-- Embedding of `BillingStatus` (resources.go): `0` unsettled, `1` settled. -/

inductive BillingStatus where
  | Unsettled
  | Settled
deriving DecidableEq

/-- Embedding of the Go struct `Payment` (resources.go). -/

structure Payment where
  Method : List Char
  UserID : List Char
  Amount : Int
  TradeNO : List Char
  CodeURL : List Char
deriving DecidableEq

/-- Embedding of the Go struct `Transfer` (resources.go). -/

structure Transfer where
  FromID : List Char
  ToID : List Char
  Amount : Int
deriving DecidableEq

/-- Embedding of the Go struct `AppCost` (resources.go); the enum-keyed
usage maps are association lists. -/

structure AppCost where
  Used : List (Nat × Int)
  UsedAmount : List (Nat × Int)
  Amount : Int
  Name : List Char
deriving DecidableEq

/-- Embedding of the Go struct `Billing` (resources.go).  `Payment` and
`Transfer` are both plain optional fields, exactly as in the source; the
source contains no constructor or validation function for this type.  The
Go field `Type` is embedded as `BType` (`Type` is reserved in Lean). -/

structure Billing where
  Time : Int
  OrderID : List Char
  BType : AccountType
  Namespace : List Char
  AppCosts : List AppCost
  AppType : Nat
  Amount : Int
  Owner : List Char
  Status : BillingStatus
  Payment : Option Payment
  Transfer : Option Transfer
deriving DecidableEq

/-- The sum of the per-application amounts of a billing record, as the
claimed invariant reads it (`sum over AppCosts[i].Amount`). -/

def appCostsSum (l : List AppCost) : Int :=
  (l.map AppCost.Amount).sum

/-- Embedding of the constant `GpuResourcePrefix = "gpu-"` (resources.go). -/

def GpuResourcePrefix : List Char := str "gpu-"

/-- Embedding of `NewGpuResource` (resources.go): prepend the gpu prefix to
the product id. -/

def NewGpuResource (product : List Char) : List Char :=
  GpuResourcePrefix ++ product

/-- Embedding of `IsGpuResource` (resources.go): `strings.HasPrefix` on the
gpu prefix. -/

def IsGpuResource (res : List Char) : Bool :=
  decide ( GpuResourcePrefix <+: res)

/-- Embedding of `GetGpuResourceProduct` (resources.go):
`strings.TrimPrefix` on the gpu prefix — drop the prefix when present,
return the input unchanged otherwise. -/

def GetGpuResourceProduct (res : List Char) : List Char :=
  if GpuResourcePrefix <+: res then res.drop GpuResourcePrefix.length else res

/-- Fuel-driven floor-log2 on naturals (`nlog2Aux n n` below always has
enough fuel). -/

def nlog2Aux : Nat → Nat → Nat
  | 0, _ => 0
  | fuel + 1, n => if 2 ≤ n then nlog2Aux fuel (n / 2) + 1 else 0

/-- Floor of the base-2 logarithm of a natural number (0 on 0 and 1). -/

def nlog2 (n : Nat) : Nat := nlog2Aux n n

/-- Floor of the base-2 logarithm of a positive rational. -/

def qlog2 (x : ℚ) : ℤ :=
  let d : ℤ := (nlog2 x.num.toNat : ℤ) - (nlog2 x.den : ℤ)
  if (2 : ℚ) ^ d ≤ x then d else d - 1

/-- Round a rational to the nearest integer, ties to even (the IEEE-754
default rounding used by Go's float64 arithmetic). -/

def rne (x : ℚ) : ℤ :=
  if Int.fract x < 1 / 2 then ⌊x⌋
  else if 1 / 2 < Int.fract x then ⌊x⌋ + 1
  else if ⌊x⌋ % 2 = 0 then ⌊x⌋ else ⌊x⌋ + 1

/-- The IEEE-754 binary64 rounding of an exact (rational) value in the
normal range: round the significand `x / 2^(qlog2 |x| - 52)` (which lies in
`[2^52, 2^53)`) to the nearest integer, ties to even, and scale back.
Subnormal underflow and overflow to infinity do not occur at the magnitudes
reached in `GetResourceValue` on the inputs the claims quantify over, so
this models Go's float64 conversion of an `int64` and its correctly-rounded
float64 division. -/

def fl (x : ℚ) : ℚ :=
  if x = 0 then 0
  else (rne (x / 2 ^ (qlog2 |x| - 52)) : ℚ) * 2 ^ (qlog2 |x| - 52)

/-- Resource names (`corev1.ResourceName`) are Go strings. -/

abbrev ResourceName := List Char

/-- Modelled from the spec: `gpu.NvidiaGpuKey` (package
`controllers/pkg/gpu`, outside the given sources), the fixed resource name
of the GPU-equivalent unit; the spec only requires it to be a fixed key
distinct from the `gpu-`-prefixed per-product names. -/

def NvidiaGpuKey : ResourceName := str "nvidia.com/gpu"

/-- Embedding of `cpuUnit = resource.MustParse("1m")`: milli-value 1. -/

def cpuUnit : Quantity := mustParse (str "1m")

/-- Embedding of `bin1Mi = resource.NewQuantity(1<<20, resource.BinarySI)`:
2^20 bytes, milli-value `2^20 * 1000`. -/

def bin1Mi : Quantity := { milli := 2 ^ 20 * 1000 }

/-- Embedding of `ResourceNetwork = "network"` (resources.go). -/

def ResourceNetwork : ResourceName := str "network"

/-- Embedding of the Go map `PricesUnit` (resources.go): the five fixed
divisor entries, as a lookup function (`none` = missing key = nil pointer
in Go). -/

def PricesUnit (rn : ResourceName) : Option Quantity :=
  if rn = str "cpu" then some cpuUnit
  else if rn = NvidiaGpuKey then some cpuUnit
  else if rn = str "memory" then some bin1Mi
  else if rn = str "storage" then some bin1Mi
  else if rn = ResourceNetwork then some bin1Mi
  else none

/-- Embedding of `QuantityDetail` (resources.go): the quantity's milli-value
plus the detail string. -/

structure QuantityDetail where
  milli : Int
  Detail : List Char
deriving DecidableEq

/-- Go conversion `int64(f)` of an integer-valued float64: exact when the
value is representable in int64; outside that range the Go result is
implementation-dependent (Go spec), embedded as `none`. -/

def goInt64 (m : Int) : Option Int :=
  if -(2 ^ 63) ≤ m ∧ m < 2 ^ 63 then some m else none

/-- Embedding of `GetResourceValue` (resources.go):

`int64(math.Ceil(float64(q.MilliValue()) / float64(PricesUnit[rn].MilliValue())))`

* the two `float64(·)` conversions and the float64 division are the
  correctly-rounded operations modelled by `fl`;
* `math.Ceil` on a float64 is the exact mathematical ceiling (every float's
  ceiling is itself representable), hence `Int.ceil`;
* the final `int64(·)` conversion is `goInt64`;
* a resource name missing from `PricesUnit` makes the Go code dereference a
  nil `*resource.Quantity` (panic), embedded as `none`;
* a missing quantity or a zero milli-value returns 0 before any lookup. -/

def GetResourceValue (resourceName : ResourceName)
    (res : ResourceName → Option QuantityDetail) : Option Int :=
  match res resourceName with
  | some quantity =>
    if quantity.milli ≠ 0 then
      match PricesUnit resourceName with
      | some u => goInt64 ⌈fl (fl (quantity.milli : ℚ) / fl (u.milli : ℚ))⌉
      | none => none
    else some 0
  | none => some 0

example : (DefaultPropertyTypeLS.EnumMap 1).map PropertyType.Name = some (str "memory") := by
  decide

example : (DefaultPropertyTypeLS.StringMap (str "cpu")).map PropertyType.UnitPrice = some 67 := by
  decide

example : DefaultPropertyTypeLS.EnumMap 7 = none := by decide

example : ConvertEnumUsedToString [(5, 42)] [] = some 42 := by decide

theorem parseUnitEntry_Name (parse : List Char → Quantity) (t : PropertyType) :
    (parseUnitEntry parse t).Name = t.Name := by
  unfold parseUnitEntry; split <;> rfl

theorem parseUnitEntry_Enum (parse : List Char → Quantity) (t : PropertyType) :
    (parseUnitEntry parse t).Enum = t.Enum := by
  unfold parseUnitEntry; split <;> rfl

theorem parseUnitEntry_of_set (parse : List Char → Quantity) (t : PropertyType)
    (h : t.Unit ≠ none ∨ t.UnitString = []) : parseUnitEntry parse t = t := by
  unfold parseUnitEntry
  rcases h with h | h
  · rw [if_neg]; intro hc; exact h hc.1
  · rw [if_neg]; intro hc; exact hc.2 h

theorem parseUnitEntry_of_unset (parse : List Char → Quantity) (t : PropertyType)
    (h1 : t.Unit = none) (h2 : t.UnitString ≠ []) :
    parseUnitEntry parse t = { t with Unit := some (parse t.UnitString) } := by
  unfold parseUnitEntry; rw [if_pos ⟨h1, h2⟩]

theorem parseUnitEntry_idem (parse : List Char → Quantity) (t : PropertyType) :
    parseUnitEntry parse (parseUnitEntry parse t) = parseUnitEntry parse t := by
  by_cases h1 : t.Unit = none ∧ t.UnitString ≠ []
  · rw [parseUnitEntry_of_unset parse t h1.1 h1.2]
    exact parseUnitEntry_of_set parse _ (Or.inl (by simp))
  · rw [parseUnitEntry_of_set parse t (by tauto)]
    exact parseUnitEntry_of_set parse t (by tauto)

theorem map_parseUnitEntry_Name (parse : List Char → Quantity)
    (l : List PropertyType) :
    (l.map (parseUnitEntry parse)).map PropertyType.Name = l.map PropertyType.Name := by
  rw [List.map_map]
  exact List.map_congr_left fun t _ => parseUnitEntry_Name parse t

theorem map_parseUnitEntry_Enum (parse : List Char → Quantity)
    (l : List PropertyType) :
    (l.map (parseUnitEntry parse)).map PropertyType.Enum = l.map PropertyType.Enum := by
  rw [List.map_map]
  exact List.map_congr_left fun t _ => parseUnitEntry_Enum parse t

/-- Reading a fold of map-insertions at a key none of the inserted entries
carries just reads the initial map. -/
theorem foldl_mapInsert_ne {α β γ : Type} [DecidableEq α] (key : β → α) (val : β → γ)
    (l : List β) (m0 : α → Option γ) (k : α) (h : ∀ b ∈ l, key b ≠ k) :
    l.foldl (fun m b => mapInsert m (key b) (val b)) m0 k = m0 k := by
  induction l generalizing m0 with
  | nil => rfl
  | cons c cs ih =>
    rw [List.foldl_cons, ih _ fun b hb => h b (List.mem_cons_of_mem c hb)]
    exact if_neg fun hc => h c (List.mem_cons_self c cs) hc.symm

/-- Reading a fold of map-insertions at the key of an entry that no later
entry shadows yields that entry's value. -/
theorem foldl_mapInsert_last {α β γ : Type} [DecidableEq α] (key : β → α) (val : β → γ)
    (l1 : List β) (b : β) (l2 : List β) (m0 : α → Option γ)
    (h2 : ∀ c ∈ l2, key c ≠ key b) :
    (l1 ++ b :: l2).foldl (fun m x => mapInsert m (key x) (val x)) m0 (key b)
      = some (val b) := by
  rw [List.foldl_append, List.foldl_cons, foldl_mapInsert_ne key val l2 _ _ h2]
  simp [mapInsert]

/-- Under key-nodup, every inserted entry is retrievable by its key. -/
theorem foldl_mapInsert_mem_nodup {α β γ : Type} [DecidableEq α] (key : β → α)
    (val : β → γ) (l : List β) (m0 : α → Option γ) (hnd : (l.map key).Nodup)
    (b : β) (hb : b ∈ l) :
    l.foldl (fun m x => mapInsert m (key x) (val x)) m0 (key b) = some (val b) := by
  obtain ⟨l1, l2, rfl⟩ := List.append_of_mem hb
  refine foldl_mapInsert_last key val l1 b l2 m0 fun c hc => ?_
  have h1 : (List.map key (b :: l2)).Nodup := by
    rw [List.map_append] at hnd
    exact hnd.of_append_right
  rw [List.map_cons, List.nodup_cons] at h1
  intro he
  exact h1.1 (he ▸ List.mem_map_of_mem key hc)

/-- If some entry carries the key, the fold read at that key returns the
value of one of the entries carrying it. -/
theorem foldl_mapInsert_exists {α β γ : Type} [DecidableEq α] (key : β → α)
    (val : β → γ) (l : List β) (m0 : α → Option γ) (k : α)
    (hex : ∃ b ∈ l, key b = k) :
    ∃ b ∈ l, key b = k ∧
      l.foldl (fun m x => mapInsert m (key x) (val x)) m0 k = some (val b) := by
  induction l generalizing m0 with
  | nil => obtain ⟨b, hb, _⟩ := hex; exact absurd hb (List.not_mem_nil b)
  | cons c cs ih =>
    by_cases hcs : ∃ b ∈ cs, key b = k
    · obtain ⟨b, hb, hk, hv⟩ := ih _ hcs
      exact ⟨b, List.mem_cons_of_mem c hb, hk, hv⟩
    · have hck : key c = k := by
        obtain ⟨b, hb, hk⟩ := hex
        rcases List.mem_cons.mp hb with rfl | hb2
        · exact hk
        · exact absurd ⟨b, hb2, hk⟩ hcs
      refine ⟨c, List.mem_cons_self c cs, hck, ?_⟩
      rw [List.foldl_cons,
        foldl_mapInsert_ne key val cs _ _ fun b hb he => hcs ⟨b, hb, he⟩]
      rw [mapInsert, if_pos hck.symm]

/-- If any entry has an empty ciphertext or fails decryption, the whole
`decryptPrice` walk errors out. -/
theorem decryptPrice_error (dec : List Char → Option Int) (types : List PropertyType)
    (hex : ∃ t ∈ types, t.EncryptUnitPrice = [] ∨ dec t.EncryptUnitPrice = none) :
    ∃ e, decryptPrice dec types = .error e := by
  induction types with
  | nil => obtain ⟨t, ht, _⟩ := hex; exact absurd ht (List.not_mem_nil t)
  | cons t ts ih =>
    by_cases h1 : t.EncryptUnitPrice = []
    · exact ⟨_, by rw [decryptPrice, if_pos h1]⟩
    · rcases hd : dec t.EncryptUnitPrice with _ | price
      · exact ⟨_, by rw [decryptPrice, if_neg h1, hd]⟩
      · have hex2 : ∃ u ∈ ts, u.EncryptUnitPrice = [] ∨ dec u.EncryptUnitPrice = none := by
          obtain ⟨u, hu, hor⟩ := hex
          rcases List.mem_cons.mp hu with rfl | hu2
          · rcases hor with h | h
            · exact absurd h h1
            · rw [hd] at h; exact absurd h (by simp)
          · exact ⟨u, hu2, hor⟩
        obtain ⟨e, he⟩ := ih hex2
        exact ⟨e, by rw [decryptPrice, if_neg h1, hd, he]⟩

/-- If every entry has a ciphertext the primitive accepts, `decryptPrice`
succeeds and replaces every unit price by its decrypted value. -/
theorem decryptPrice_ok (dec : List Char → Option Int) (types : List PropertyType)
    (hall : ∀ t ∈ types, t.EncryptUnitPrice ≠ [] ∧ (dec t.EncryptUnitPrice).isSome) :
    decryptPrice dec types =
      .ok (types.map fun t =>
        { t with UnitPrice := (dec t.EncryptUnitPrice).getD t.UnitPrice }) := by
  induction types with
  | nil => rfl
  | cons t ts ih =>
    obtain ⟨h1, h2⟩ := hall t (List.mem_cons_self t ts)
    obtain ⟨price, hp⟩ := Option.isSome_iff_exists.mp h2
    rw [decryptPrice, if_neg h1, hp,
      ih fun u hu => hall u (List.mem_cons_of_mem t hu), List.map_cons, hp]
    rfl

/-- Claim C1: decryption is all-or-nothing.  If any entry of the input list
has an empty `EncryptUnitPrice` or fails decryption, `NewPropertyTypeLS`
returns exactly the registry built from `DefaultPropertyTypeList` (never a
mix); if every entry decrypts, it returns the registry built from the input
with every `UnitPrice` replaced by its decrypted value. -/
theorem c1_decrypt_all_or_nothing (dec : List Char → Option Int)
    (parse : List Char → Quantity) (types : List PropertyType) :
    ((∃ t ∈ types, t.EncryptUnitPrice = [] ∨ dec t.EncryptUnitPrice = none) →
      NewPropertyTypeLS dec parse types = newPropertyTypeLS parse DefaultPropertyTypeList)
    ∧ ((∀ t ∈ types, t.EncryptUnitPrice ≠ [] ∧ (dec t.EncryptUnitPrice).isSome) →
      NewPropertyTypeLS dec parse types =
        newPropertyTypeLS parse
          (types.map fun t =>
            { t with UnitPrice := (dec t.EncryptUnitPrice).getD t.UnitPrice })) := by
  constructor
  · intro hex
    obtain ⟨e, he⟩ := decryptPrice_error dec types hex
    rw [NewPropertyTypeLS, he]
  · intro hall
    rw [NewPropertyTypeLS, decryptPrice_ok dec types hall]

/-- Witness for C10 at a concrete input: a present GPU-product-named
quantity of 1000 milli hits the nil-divisor branch. -/
theorem c1_decrypt_all_or_nothing_w :
    NewPropertyTypeLS (fun _ => none) mustParse [zeroPropertyType]
      = newPropertyTypeLS mustParse DefaultPropertyTypeList :=
  (c1_decrypt_all_or_nothing (fun _ => none) mustParse [zeroPropertyType]).1
    ⟨zeroPropertyType, List.mem_singleton_self zeroPropertyType, Or.inl rfl⟩

/-- Counterexample to claim C6 as stated: with duplicate enumeration ids the
round-trip fails.  In the registry built from `dupEnumList` the name `a`
resolves to the entry with enum 0, but `EnumMap 0` holds the later entry
`b`, so the round-trip returns `b`, not `a`. -/
theorem c6_roundtrip_cex :
    ((newPropertyTypeLS mustParse dupEnumList).StringMap (str "a")).map
        PropertyType.Enum = some 0
    ∧ ((newPropertyTypeLS mustParse dupEnumList).EnumMap 0).map
        PropertyType.Name = some (str "b")
    ∧ str "b" ≠ str "a" :=
  ⟨by decide, by decide, by decide⟩

/-- Claim C6 (amended: the input list's enumeration ids are pairwise
distinct, the registry invariant stated by the spec): for every name
occurring in the list, `EnumMap (StringMap name).Enum` returns an entry
whose name is the original name. -/
theorem c6_roundtrip (parse : List Char → Quantity) (types : List PropertyType)
    (hnd : (types.map PropertyType.Enum).Nodup) (n : List Char)
    (hn : n ∈ types.map PropertyType.Name) :
    ∃ t, (newPropertyTypeLS parse types).StringMap n = some t
      ∧ (newPropertyTypeLS parse types).EnumMap t.Enum = some t
      ∧ t.Name = n := by
  have hn2 : n ∈ (types.map (parseUnitEntry parse)).map PropertyType.Name := by
    rw [map_parseUnitEntry_Name]; exact hn
  obtain ⟨t0, ht0, htn⟩ := List.mem_map.mp hn2
  obtain ⟨t, htmem, htname, hlook⟩ :=
    foldl_mapInsert_exists PropertyType.Name (fun x => x)
      (types.map (parseUnitEntry parse)) (fun _ => none) n ⟨t0, ht0, htn⟩
  refine ⟨t, hlook, ?_, htname⟩
  have hnd2 : ((types.map (parseUnitEntry parse)).map PropertyType.Enum).Nodup := by
    rw [map_parseUnitEntry_Enum]; exact hnd
  exact foldl_mapInsert_mem_nodup PropertyType.Enum (fun x => x)
    (types.map (parseUnitEntry parse)) (fun _ => none) hnd2 t htmem

/-- Witness for C6 at a concrete input: the default list (distinct enums),
name `cpu`. -/
theorem c6_roundtrip_w :
    ∃ t, DefaultPropertyTypeLS.StringMap (str "cpu") = some t
      ∧ DefaultPropertyTypeLS.EnumMap t.Enum = some t
      ∧ t.Name = str "cpu" :=
  c6_roundtrip mustParse DefaultPropertyTypeList (by decide) (str "cpu") (by decide)

/-- Claim C8: registry construction parses each unit string exactly once and
is idempotent.  Entries whose unit quantity is already set, or whose unit
string is empty, pass through untouched; only entries with an unset unit and
a non-empty unit string get their unit parsed; and rebuilding a registry
from an already-built registry's `Types` yields the same `Types`. -/
theorem c8_parse_once (parse : List Char → Quantity) (types : List PropertyType) :
    (∀ (i : Nat) (t : PropertyType), types[i]? = some t →
      (t.Unit ≠ none ∨ t.UnitString = []) →
      (newPropertyTypeLS parse types).Types[i]? = some t)
    ∧ (∀ (i : Nat) (t : PropertyType), types[i]? = some t →
      t.Unit = none → t.UnitString ≠ [] →
      (newPropertyTypeLS parse types).Types[i]? =
        some { t with Unit := some (parse t.UnitString) })
    ∧ (newPropertyTypeLS parse ((newPropertyTypeLS parse types).Types)).Types
        = (newPropertyTypeLS parse types).Types := by
  refine ⟨?_, ?_, ?_⟩
  · intro i t hi hset
    show (types.map (parseUnitEntry parse))[i]? = some t
    rw [List.getElem?_map, hi]
    simp [parseUnitEntry_of_set parse t hset]
  · intro i t hi h1 h2
    show (types.map (parseUnitEntry parse))[i]? = some _
    rw [List.getElem?_map, hi]
    simp [parseUnitEntry_of_unset parse t h1 h2]
  · show ((types.map (parseUnitEntry parse)).map (parseUnitEntry parse))
        = types.map (parseUnitEntry parse)
    rw [List.map_map]
    exact List.map_congr_left fun t _ => parseUnitEntry_idem parse t

/-- Witness for C8 at concrete inputs: an entry with a pre-set unit is left
untouched, an unset entry gets its unit string parsed, and rebuilding the
default registry from its own `Types` is the identity on `Types`. -/
theorem c8_parse_once_w :
    (newPropertyTypeLS mustParse
        [{ zeroPropertyType with Unit := some { milli := 7 }, UnitString := str "1Mi" }]).Types[0]?
      = some { zeroPropertyType with Unit := some { milli := 7 }, UnitString := str "1Mi" }
    ∧ (newPropertyTypeLS mustParse
        [{ zeroPropertyType with UnitString := str "1m" }]).Types[0]?
      = some { zeroPropertyType with Unit := some { milli := 1 }, UnitString := str "1m" }
    ∧ (newPropertyTypeLS mustParse DefaultPropertyTypeLS.Types).Types
        = DefaultPropertyTypeLS.Types := by
  refine ⟨?_, ?_, ?_⟩
  · exact (c8_parse_once mustParse
      [{ zeroPropertyType with Unit := some { milli := 7 }, UnitString := str "1Mi" }]).1
      0 _ rfl (Or.inl (by decide))
  · exact (c8_parse_once mustParse
      [{ zeroPropertyType with UnitString := str "1m" }]).2.1 0 _ rfl rfl (by decide)
  · exact (c8_parse_once mustParse DefaultPropertyTypeList).2.2

/-- The enum index of the built default registry, read at any key, is a
chain of key tests (latest insertion tested first). -/
theorem defaultEnumMap_apply (k : Nat) :
    DefaultPropertyTypeLS.EnumMap k =
      if k = 3 then some networkDefaultPT
      else if k = 2 then some storageDefaultPT
      else if k = 1 then some memoryDefaultPT
      else if k = 0 then some cpuDefaultPT
      else none := rfl

/-- Every entry registered in the default registry has a non-empty name. -/
theorem defaultEnumMap_name_ne_nil (k : Nat) (t : PropertyType)
    (h : DefaultPropertyTypeLS.EnumMap k = some t) : t.Name ≠ [] := by
  rw [defaultEnumMap_apply] at h
  split_ifs at h <;>
    first
      | (injection h with h2; subst h2; decide)
      | exact Option.noConfusion h

/-- Distinct enum ids of the default registry carry distinct names. -/
theorem defaultEnumMap_name_inj (k1 k2 : Nat) (t1 t2 : PropertyType)
    (h1 : DefaultPropertyTypeLS.EnumMap k1 = some t1)
    (h2 : DefaultPropertyTypeLS.EnumMap k2 = some t2)
    (hn : t1.Name = t2.Name) : k1 = k2 := by
  rw [defaultEnumMap_apply] at h1 h2
  split_ifs at h1 h2 <;>
    first
      | exact Option.noConfusion h1
      | exact Option.noConfusion h2
      | (injection h1 with e1; injection h2 with e2; subst e1; subst e2;
          first
            | omega
            | exact absurd hn (by decide))

/-- Counterexample to claim C4 as stated: an id unknown to the registry is
not omitted.  The Go read of the missing key yields the zero-value
`PropertyType`, so the amount lands in the output under the empty name. -/
theorem c4_enum_translate_cex :
    DefaultPropertyTypeLS.EnumMap 5 = none
    ∧ ConvertEnumUsedToString [(5, 42)] [] = some 42 :=
  ⟨by decide, by decide⟩

/-- Claim C4 (amended): for an input map with pairwise-distinct ids, every
id known to the registry maps to its registered name with its amount
unchanged; an id unknown to the registry is not omitted but produces an
output entry under the empty name (the zero value's `Name`). -/
theorem c4_enum_translate (costs : List (Nat × Int))
    (hnd : (costs.map Prod.fst).Nodup) :
    (∀ p ∈ costs, ∀ t : PropertyType, DefaultPropertyTypeLS.EnumMap p.1 = some t →
      ConvertEnumUsedToString costs t.Name = some p.2)
    ∧ (∀ p ∈ costs, DefaultPropertyTypeLS.EnumMap p.1 = none →
      ∃ v, ConvertEnumUsedToString costs [] = some v) := by
  constructor
  · intro p hp t ht
    obtain ⟨l1, l2, rfl⟩ := List.append_of_mem hp
    have hkey : ∀ c ∈ l2,
        ((DefaultPropertyTypeLS.EnumMap c.1).getD zeroPropertyType).Name ≠
          ((DefaultPropertyTypeLS.EnumMap p.1).getD zeroPropertyType).Name := by
      intro c hc he
      have hfst : c.1 ≠ p.1 := by
        have h3 : ((l1 ++ p :: l2).map Prod.fst).Nodup := hnd
        rw [List.map_append] at h3
        have h4 := h3.of_append_right
        rw [List.map_cons, List.nodup_cons] at h4
        intro he2
        exact h4.1 (he2 ▸ List.mem_map_of_mem Prod.fst hc)
      rw [ht] at he
      rcases hcE : DefaultPropertyTypeLS.EnumMap c.1 with _ | u
      · rw [hcE] at he
        simp only [Option.getD_none, Option.getD_some] at he
        exact defaultEnumMap_name_ne_nil p.1 t ht he.symm
      · rw [hcE] at he
        simp only [Option.getD_some] at he
        exact hfst (defaultEnumMap_name_inj c.1 p.1 u t hcE ht he)
    have h5 := foldl_mapInsert_last
      (fun q : Nat × Int => ((DefaultPropertyTypeLS.EnumMap q.1).getD zeroPropertyType).Name)
      (fun q : Nat × Int => q.2) l1 p l2 (fun _ => none) hkey
    simpa [ConvertEnumUsedToString, ht] using h5
  · intro p hp hnone
    obtain ⟨b, _, _, hv⟩ := foldl_mapInsert_exists
      (fun q : Nat × Int => ((DefaultPropertyTypeLS.EnumMap q.1).getD zeroPropertyType).Name)
      (fun q : Nat × Int => q.2) costs (fun _ => none) []
      ⟨p, hp, by
        show ((DefaultPropertyTypeLS.EnumMap p.1).getD zeroPropertyType).Name = []
        rw [hnone]; rfl⟩
    exact ⟨b.2, by simpa [ConvertEnumUsedToString] using hv⟩

/-- Witness for C4 at a concrete input: ids 0 (known, maps to `cpu`) and 9
(unknown, lands under the empty name). -/
theorem c4_enum_translate_w :
    ConvertEnumUsedToString [(0, 7), (9, 5)] (str "cpu") = some 7
    ∧ ∃ v, ConvertEnumUsedToString [(0, 7), (9, 5)] [] = some v := by
  constructor
  · exact (c4_enum_translate [(0, 7), (9, 5)] (by decide)).1 (0, 7)
      (by decide) cpuDefaultPT (by decide)
  · exact (c4_enum_translate [(0, 7), (9, 5)] (by decide)).2 (9, 5)
      (by decide) (by decide)

/-- Counterexample to claim C3 as stated: a `Billing` value of type
`Consumption` with a nil `Payment` and a non-nil `Transfer` is perfectly
constructible — nothing in the code rejects it. -/
theorem c3_type_invariant_cex :
    ∃ b : Billing, b.BType = AccountType.Consumption
      ∧ b.Payment = none ∧ b.Transfer ≠ none :=
  ⟨{ Time := 0, OrderID := [], BType := AccountType.Consumption, Namespace := []
   , AppCosts := [], AppType := 0, Amount := 0, Owner := []
   , Status := BillingStatus.Unsettled, Payment := none
   , Transfer := some { FromID := [], ToID := [], Amount := 5 } },
   rfl, rfl, by decide⟩

/-- Claim C3 (amended): the code does not enforce the type/sub-record
pairing at construction.  `Payment` and `Transfer` are independent optional
fields of `Billing` — every combination of billing type, payment sub-record
and transfer sub-record is representable and accepted; the pairing stated
in the source's comments is documentation only. -/
theorem c3_type_invariant_not_enforced (ty : AccountType) (p : Option Payment)
    (tr : Option Transfer) :
    ∃ b : Billing, b.BType = ty ∧ b.Payment = p ∧ b.Transfer = tr :=
  ⟨{ Time := 0, OrderID := [], BType := ty, Namespace := []
   , AppCosts := [], AppType := 0, Amount := 0, Owner := []
   , Status := BillingStatus.Unsettled, Payment := p, Transfer := tr },
   rfl, rfl, rfl⟩

/-- Counterexample to claim C5 as stated: a `Billing` value with a
non-empty `AppCosts` whose `Amount` differs from the sum of the per-app
amounts is perfectly constructible — nothing in the code rejects it. -/
theorem c5_appcost_sum_cex :
    ∃ b : Billing, b.AppCosts ≠ []
      ∧ b.Amount ≠ appCostsSum b.AppCosts :=
  ⟨{ Time := 0, OrderID := [], BType := AccountType.Consumption, Namespace := []
   , AppCosts := [{ Used := [], UsedAmount := [], Amount := 5, Name := [] }]
   , AppType := 0, Amount := 99, Owner := []
   , Status := BillingStatus.Unsettled, Payment := none, Transfer := none },
   by decide, by decide⟩

/-- Claim C5 (amended): the code does not enforce the sum law.  `Amount`
and `AppCosts` are independent fields of `Billing`; every combination —
including ones where `Amount` differs from the sum of the per-application
amounts — is representable and accepted, with no validation at
construction. -/
theorem c5_appcost_sum_not_enforced (costs : List AppCost) (amount : Int) :
    ∃ b : Billing, b.AppCosts = costs ∧ b.Amount = amount :=
  ⟨{ Time := 0, OrderID := [], BType := AccountType.Consumption, Namespace := []
   , AppCosts := costs, AppType := 0, Amount := amount, Owner := []
   , Status := BillingStatus.Unsettled, Payment := none, Transfer := none },
   rfl, rfl⟩

/-- Claim C9: the GPU naming helpers round-trip.  `NewGpuResource p` is the
fixed prefix followed by `p`, it is recognised by `IsGpuResource`, and
`GetGpuResourceProduct` recovers `p`; on any string not starting with the
prefix, `IsGpuResource` is false and `GetGpuResourceProduct` is the
identity. -/
theorem c9_gpu_roundtrip :
    (∀ p : List Char, NewGpuResource p = GpuResourcePrefix ++ p)
    ∧ (∀ p : List Char, IsGpuResource (NewGpuResource p) = true)
    ∧ (∀ p : List Char, GetGpuResourceProduct (NewGpuResource p) = p)
    ∧ (∀ s : List Char, ¬ ( GpuResourcePrefix <+: s) →
        IsGpuResource s = false ∧ GetGpuResourceProduct s = s) := by
  refine ⟨fun p => rfl, fun p => ?_, fun p => ?_, fun s hs => ⟨?_, ?_⟩⟩
  · exact decide_eq_true (List.prefix_append GpuResourcePrefix p)
  · rw [GetGpuResourceProduct, NewGpuResource,
      if_pos (List.prefix_append GpuResourcePrefix p)]
    exact List.drop_left GpuResourcePrefix p
  · exact decide_eq_false hs
  · exact if_neg hs

/-- Witness for C9 at concrete inputs: product `tesla-v100`, and the
non-prefixed resource name `cpu`. -/
theorem c9_gpu_roundtrip_w :
    NewGpuResource (str "tesla-v100") = str "gpu-tesla-v100"
    ∧ IsGpuResource (str "gpu-tesla-v100") = true
    ∧ GetGpuResourceProduct (str "gpu-tesla-v100") = str "tesla-v100"
    ∧ IsGpuResource (str "cpu") = false
    ∧ GetGpuResourceProduct (str "cpu") = str "cpu" := by
  refine ⟨by decide, ?_, ?_, ?_, ?_⟩
  · have h := c9_gpu_roundtrip.2.1 (str "tesla-v100")
    exact h
  · have h := c9_gpu_roundtrip.2.2.1 (str "tesla-v100")
    exact h
  · exact (c9_gpu_roundtrip.2.2.2 (str "cpu") (by decide)).1
  · exact (c9_gpu_roundtrip.2.2.2 (str "cpu") (by decide)).2

theorem nlog2Aux_spec (fuel n : Nat) (h1 : 1 ≤ n) (h2 : n ≤ fuel) :
    2 ^ nlog2Aux fuel n ≤ n ∧ n < 2 ^ (nlog2Aux fuel n + 1) := by
  induction fuel generalizing n with
  | zero => omega
  | succ fuel ih =>
    rw [nlog2Aux]
    by_cases hn : 2 ≤ n
    · rw [if_pos hn]
      have hm1 : 1 ≤ n / 2 := Nat.one_le_div_iff (by omega) |>.mpr hn
      have hm2 : n / 2 ≤ fuel := by omega
      obtain ⟨hl, hr⟩ := ih (n / 2) hm1 hm2
      constructor
      · calc 2 ^ (nlog2Aux fuel (n / 2) + 1) = 2 ^ nlog2Aux fuel (n / 2) * 2 := by ring
        _ ≤ n / 2 * 2 := by omega
        _ ≤ n := by omega
      · have : n < 2 ^ (nlog2Aux fuel (n / 2) + 1) * 2 := by omega
        calc n < 2 ^ (nlog2Aux fuel (n / 2) + 1) * 2 := this
        _ = 2 ^ (nlog2Aux fuel (n / 2) + 1 + 1) := by ring
    · rw [if_neg hn]
      constructor
      · simpa using h1
      · simpa using by omega

theorem nlog2_spec (n : Nat) (h1 : 1 ≤ n) :
    2 ^ nlog2 n ≤ n ∧ n < 2 ^ (nlog2 n + 1) :=
  nlog2Aux_spec n n h1 le_rfl

theorem qlog2_spec (x : ℚ) (hx : 0 < x) :
    (2 : ℚ) ^ qlog2 x ≤ x ∧ x < 2 ^ (qlog2 x + 1) := by
  have hnum : 0 < x.num := Rat.num_pos.mpr hx
  have ha1 : 1 ≤ x.num.toNat := by omega
  have hb1 : 1 ≤ x.den := x.pos
  obtain ⟨hal, har⟩ := nlog2_spec _ ha1
  obtain ⟨hbl, hbr⟩ := nlog2_spec _ hb1
  set d : ℤ := (nlog2 x.num.toNat : ℤ) - (nlog2 x.den : ℤ) with hd
  have hb0 : (0 : ℚ) < (x.den : ℚ) := by exact_mod_cast hb1
  have hxab : x = (x.num.toNat : ℚ) / (x.den : ℚ) := by
    have h0 : ((x.num.toNat : ℕ) : ℚ) = ((x.num : ℤ) : ℚ) := by
      rw [← Int.cast_natCast, Int.toNat_of_nonneg hnum.le]
    rw [h0]
    exact (Rat.num_div_den x).symm
  have haQl : (2 : ℚ) ^ ((nlog2 x.num.toNat : ℤ)) ≤ (x.num.toNat : ℚ) := by
    rw [zpow_natCast]; exact_mod_cast hal
  have haQr : (x.num.toNat : ℚ) < 2 ^ ((nlog2 x.num.toNat : ℤ) + 1) := by
    have he : ((nlog2 x.num.toNat : ℤ) + 1) = ((nlog2 x.num.toNat + 1 : Nat) : ℤ) := by
      push_cast; ring
    rw [he, zpow_natCast]; exact_mod_cast har
  have hbQl : (2 : ℚ) ^ ((nlog2 x.den : ℤ)) ≤ (x.den : ℚ) := by
    rw [zpow_natCast]; exact_mod_cast hbl
  have hbQr : (x.den : ℚ) < 2 ^ ((nlog2 x.den : ℤ) + 1) := by
    have he : ((nlog2 x.den : ℤ) + 1) = ((nlog2 x.den + 1 : Nat) : ℤ) := by
      push_cast; ring
    rw [he, zpow_natCast]; exact_mod_cast hbr
  have hupper : x < 2 ^ (d + 1) := by
    rw [hxab, div_lt_iff₀ hb0]
    calc (x.num.toNat : ℚ)
        < 2 ^ ((nlog2 x.num.toNat : ℤ) + 1) := haQr
      _ = 2 ^ (d + 1) * 2 ^ ((nlog2 x.den : ℤ)) := by
          rw [← zpow_add₀ (two_ne_zero : (2 : ℚ) ≠ 0)]; congr 1; omega
      _ ≤ 2 ^ (d + 1) * (x.den : ℚ) :=
          mul_le_mul_of_nonneg_left hbQl (le_of_lt (zpow_pos (by norm_num) _))
  have hlower : (2 : ℚ) ^ (d - 1) < x := by
    rw [hxab, lt_div_iff₀ hb0]
    calc (2 : ℚ) ^ (d - 1) * (x.den : ℚ)
        < 2 ^ (d - 1) * 2 ^ ((nlog2 x.den : ℤ) + 1) :=
          mul_lt_mul_of_pos_left hbQr (zpow_pos (by norm_num) _)
      _ = 2 ^ ((nlog2 x.num.toNat : ℤ)) := by
          rw [← zpow_add₀ (two_ne_zero : (2 : ℚ) ≠ 0)]; congr 1; omega
      _ ≤ (x.num.toNat : ℚ) := haQl
  have hq : qlog2 x = if (2 : ℚ) ^ d ≤ x then d else d - 1 := rfl
  rw [hq]
  split_ifs with hc
  · exact ⟨hc, hupper⟩
  · refine ⟨le_of_lt hlower, ?_⟩
    have he : d - 1 + 1 = d := by ring
    rw [he]
    exact lt_of_not_le hc

/-- The function `qlog2` returns the unique exponent with `2^k ≤ x < 2^(k+1)`. -/
theorem qlog2_eq (x : ℚ) (k : ℤ) (h1 : (2 : ℚ) ^ k ≤ x) (h2 : x < 2 ^ (k + 1)) :
    qlog2 x = k := by
  have hx : 0 < x := lt_of_lt_of_le (zpow_pos (by norm_num) k) h1
  obtain ⟨hl, hr⟩ := qlog2_spec x hx
  by_contra hne
  rcases lt_or_gt_of_ne hne with h | h
  · have h3 : (2 : ℚ) ^ (qlog2 x + 1) ≤ 2 ^ k :=
      zpow_le_zpow_right₀ (by norm_num) (by omega)
    exact absurd (lt_of_lt_of_le hr (le_trans h3 h1)) (lt_irrefl x)
  · have h3 : (2 : ℚ) ^ (k + 1) ≤ 2 ^ qlog2 x :=
      zpow_le_zpow_right₀ (by norm_num) (by omega)
    exact absurd (lt_of_lt_of_le h2 (le_trans h3 hl)) (lt_irrefl x)

theorem qlog2_le_of_lt (x : ℚ) (k : ℤ) (hx : 0 < x) (h : x < 2 ^ (k + 1)) :
    qlog2 x ≤ k := by
  obtain ⟨hl, _⟩ := qlog2_spec x hx
  by_contra hgt
  have h3 : (2 : ℚ) ^ (k + 1) ≤ 2 ^ qlog2 x :=
    zpow_le_zpow_right₀ (by norm_num) (by omega)
  exact absurd (lt_of_lt_of_le h (le_trans h3 hl)) (lt_irrefl x)

theorem qlog2_mono (x y : ℚ) (hx : 0 < x) (hxy : x ≤ y) : qlog2 x ≤ qlog2 y := by
  obtain ⟨hlx, _⟩ := qlog2_spec x hx
  obtain ⟨_, hry⟩ := qlog2_spec y (lt_of_lt_of_le hx hxy)
  by_contra h
  have h2 : (2 : ℚ) ^ (qlog2 y + 1) ≤ 2 ^ qlog2 x :=
    zpow_le_zpow_right₀ (by norm_num) (by omega)
  exact absurd hxy (not_le.mpr (lt_of_lt_of_le (lt_of_lt_of_le hry h2) hlx))

theorem rne_intCast (n : ℤ) : rne (n : ℚ) = n := by
  rw [rne, Int.fract_intCast, if_pos (by norm_num : (0 : ℚ) < 1 / 2), Int.floor_intCast]

theorem rne_err (x : ℚ) : |(rne x : ℚ) - x| ≤ 1 / 2 := by
  have h0 : (0 : ℚ) ≤ Int.fract x := Int.fract_nonneg x
  have h1 : Int.fract x < 1 := Int.fract_lt_one x
  have hfl : ((⌊x⌋ : ℤ) : ℚ) = x - Int.fract x := by
    rw [Int.fract]; ring
  rw [rne]
  split_ifs with ha hb hcc <;> rw [abs_le] <;> constructor <;> push_cast <;> linarith

theorem rne_ge_floor (x : ℚ) : ⌊x⌋ ≤ rne x := by
  rw [rne]; split_ifs <;> omega

theorem rne_le_floor_add_one (x : ℚ) : rne x ≤ ⌊x⌋ + 1 := by
  rw [rne]; split_ifs <;> omega

theorem rne_le_ceil (x : ℚ) : rne x ≤ ⌈x⌉ := by
  have hfr : Int.fract x = x - ⌊x⌋ := rfl
  rw [rne]
  split_ifs with ha hb hcc
  · exact Int.floor_le_ceil x
  · have hx : (⌊x⌋ : ℚ) < x := by rw [hfr] at hb; linarith
    have := Int.lt_ceil.mpr hx
    omega
  · exact Int.floor_le_ceil x
  · have hx : (⌊x⌋ : ℚ) < x := by rw [hfr] at ha hb; linarith
    have := Int.lt_ceil.mpr hx
    omega

theorem rne_eq_or (x : ℚ) : rne x = ⌊x⌋ ∨ rne x = ⌊x⌋ + 1 := by
  rw [rne]; split_ifs <;> simp

theorem rne_eq_floor_add_one_iff (z : ℚ) :
    rne z = ⌊z⌋ + 1 ↔
      (1 / 2 < Int.fract z ∨ (Int.fract z = 1 / 2 ∧ ¬ ⌊z⌋ % 2 = 0)) := by
  constructor
  · intro h
    rw [rne] at h
    split_ifs at h with ha hb hcc
    · omega
    · exact Or.inl hb
    · omega
    · exact Or.inr ⟨le_antisymm (not_lt.mp hb) (not_lt.mp ha), hcc⟩
  · intro h
    rw [rne]
    rcases h with h | ⟨h1, h2⟩
    · rw [if_neg (by linarith), if_pos h]
    · rw [h1, if_neg (by norm_num), if_neg (by norm_num), if_neg h2]

theorem rne_mono (x y : ℚ) (hxy : x ≤ y) : rne x ≤ rne y := by
  rcases lt_or_eq_of_le (Int.floor_le_floor hxy) with hf | hf
  · have h1 := rne_le_floor_add_one x
    have h2 := rne_ge_floor y
    omega
  · have hfrx : Int.fract x = x - ⌊x⌋ := rfl
    have hfry : Int.fract y = y - ⌊y⌋ := rfl
    have hfxy : Int.fract x ≤ Int.fract y := by
      rw [hfrx, hfry, ← hf]
      have : ((⌊x⌋ : ℤ) : ℚ) ≤ ((⌊x⌋ : ℤ) : ℚ) := le_refl _
      linarith
    rcases rne_eq_or x with hx | hx
    · have := rne_ge_floor y
      omega
    · have hy : rne y = ⌊y⌋ + 1 := by
        rw [rne_eq_floor_add_one_iff]
        rcases (rne_eq_floor_add_one_iff x).mp hx with h | ⟨h1, h2⟩
        · exact Or.inl (lt_of_lt_of_le h hfxy)
        · rcases lt_or_le (1 / 2) (Int.fract y) with hgt | hle
          · exact Or.inl hgt
          · refine Or.inr ⟨le_antisymm hle (h1 ▸ hfxy), ?_⟩
            rw [← hf]
            exact h2
      omega

theorem rne_neg (x : ℚ) : rne (-x) = -rne x := by
  by_cases hint : Int.fract x = 0
  · have e2 : Int.fract x = x - ⌊x⌋ := rfl
    have hx : x = ((⌊x⌋ : ℤ) : ℚ) := by rw [e2] at hint; linarith
    rw [hx, ← Int.cast_neg, rne_intCast, rne_intCast]
  · have h0 : 0 < Int.fract x := lt_of_le_of_ne (Int.fract_nonneg x) (Ne.symm hint)
    have h1 : Int.fract x < 1 := Int.fract_lt_one x
    have hfneg : Int.fract (-x) = 1 - Int.fract x := Int.fract_neg hint
    have hflneg : ⌊-x⌋ = -⌊x⌋ - 1 := by
      have e1 : Int.fract (-x) = -x - ⌊-x⌋ := rfl
      have e2 : Int.fract x = x - ⌊x⌋ := rfl
      have e3 : ((⌊-x⌋ : ℤ) : ℚ) = ((-⌊x⌋ - 1 : ℤ) : ℚ) := by push_cast; linarith
      exact_mod_cast e3
    rw [rne, rne, hfneg, hflneg]
    rcases lt_trichotomy (Int.fract x) (1 / 2) with hc | hc | hc <;>
      split_ifs <;> first | omega | linarith

theorem fl_zero : fl 0 = 0 := by rw [fl, if_pos rfl]

theorem fl_of_ne (x : ℚ) (hx : x ≠ 0) :
    fl x = (rne (x / 2 ^ (qlog2 |x| - 52)) : ℚ) * 2 ^ (qlog2 |x| - 52) := by
  rw [fl, if_neg hx]

/-- If the significand scaling of `x` lands on an integer, rounding is exact. -/
theorem fl_eq_self_of_int_div (x : ℚ) (hx : x ≠ 0) (k : ℤ)
    (hk : x / 2 ^ (qlog2 |x| - 52) = (k : ℚ)) : fl x = x := by
  rw [fl_of_ne x hx, hk, rne_intCast, ← hk,
    div_mul_cancel₀ x (zpow_ne_zero _ (two_ne_zero : (2 : ℚ) ≠ 0))]

/-- A dyadic rational with at most 53 significant bits is a binary64 value:
rounding it is exact (strict version). -/
theorem fl_dyadic_lt (m e : ℤ) (hm0 : m ≠ 0) (hm : |m| < 2 ^ 53) :
    fl ((m : ℚ) * 2 ^ e) = (m : ℚ) * 2 ^ e := by
  have h2Q : (2 : ℚ) ≠ 0 := two_ne_zero
  have hxne : (m : ℚ) * 2 ^ e ≠ 0 :=
    mul_ne_zero (Int.cast_ne_zero.mpr hm0) (zpow_ne_zero _ h2Q)
  have habs : |(m : ℚ) * 2 ^ e| = |(m : ℚ)| * 2 ^ e := by
    rw [abs_mul, abs_of_pos (zpow_pos (by norm_num : (0 : ℚ) < 2) e)]
  have habslt : |(m : ℚ) * 2 ^ e| < 2 ^ (52 + e + 1) := by
    rw [habs]
    have hmQ : |(m : ℚ)| < 2 ^ (53 : ℤ) := by
      rw [show ((53 : ℤ)) = ((53 : ℕ) : ℤ) by norm_num, zpow_natCast]
      exact_mod_cast hm
    calc |(m : ℚ)| * 2 ^ e < 2 ^ (53 : ℤ) * 2 ^ e :=
          mul_lt_mul_of_pos_right hmQ (zpow_pos (by norm_num) e)
      _ = 2 ^ (52 + e + 1) := by rw [← zpow_add₀ h2Q]; congr 1; omega
  have habspos : 0 < |(m : ℚ) * 2 ^ e| := abs_pos.mpr hxne
  have hqle : qlog2 |(m : ℚ) * 2 ^ e| ≤ 52 + e := qlog2_le_of_lt _ _ habspos habslt
  set E : ℤ := qlog2 |(m : ℚ) * 2 ^ e| - 52 with hE
  have hEe : E ≤ e := by omega
  have h2 : ((e - E).toNat : ℤ) = e - E := Int.toNat_of_nonneg (by omega)
  refine fl_eq_self_of_int_div _ hxne (m * 2 ^ (e - E).toNat) ?_
  calc (m : ℚ) * 2 ^ e / 2 ^ E = (m : ℚ) * 2 ^ (e - E) := by
        rw [mul_div_assoc, ← zpow_sub₀ h2Q]
    _ = ((m * 2 ^ (e - E).toNat : ℤ) : ℚ) := by
        push_cast
        rw [← zpow_natCast (2 : ℚ) (e - E).toNat, h2]

/-- A dyadic rational with at most 53 significant bits (2^53 included, as
it is even) rounds exactly. -/
theorem fl_dyadic (m e : ℤ) (hm : |m| ≤ 2 ^ 53) :
    fl ((m : ℚ) * 2 ^ e) = (m : ℚ) * 2 ^ e := by
  by_cases hm0 : m = 0
  · rw [hm0]; simpa using fl_zero
  rcases lt_or_eq_of_le hm with hlt | heq
  · exact fl_dyadic_lt m e hm0 hlt
  · have hcases : m = 2 ^ 53 ∨ m = -(2 ^ 53) := (abs_eq (by norm_num)).mp heq
    have hme : m = 2 * (m / 2) := by rcases hcases with h | h <;> omega
    have habs2 : |m / 2| < 2 ^ 53 := by
      rcases hcases with h | h <;> rw [h] <;> decide
    have hm20 : m / 2 ≠ 0 := by
      rcases hcases with h | h <;> rw [h] <;> decide
    have hrepr : (m : ℚ) * 2 ^ e = ((m / 2 : ℤ) : ℚ) * 2 ^ (e + 1) := by
      have hQ : (m : ℚ) = ((m / 2 : ℤ) : ℚ) * 2 := by
        have hc : ((2 * (m / 2) : ℤ) : ℚ) = ((m / 2 : ℤ) : ℚ) * 2 := by
          push_cast; ring
        rw [← hme] at hc
        exact hc
      rw [zpow_add₀ (two_ne_zero : (2 : ℚ) ≠ 0) e 1, hQ]
      ring
    rw [hrepr]
    exact fl_dyadic_lt (m / 2) (e + 1) hm20 habs2

/-- Integers up to 2^53 in magnitude round exactly. -/
theorem fl_intCast (n : ℤ) (hn : |n| ≤ 2 ^ 53) : fl (n : ℚ) = n := by
  have := fl_dyadic n 0 hn
  simpa using this

theorem fl_err (x : ℚ) (hx : x ≠ 0) : |fl x - x| ≤ 2 ^ (qlog2 |x| - 53) := by
  rw [fl_of_ne x hx]
  set E : ℤ := qlog2 |x| - 52 with hE
  have hu : (0 : ℚ) < 2 ^ E := zpow_pos (by norm_num) _
  have herr := rne_err (x / 2 ^ E)
  have hsplit : (rne (x / 2 ^ E) : ℚ) * 2 ^ E - x
      = ((rne (x / 2 ^ E) : ℚ) - x / 2 ^ E) * 2 ^ E := by
    field_simp
  rw [hsplit, abs_mul, abs_of_pos hu]
  calc |(rne (x / 2 ^ E) : ℚ) - x / 2 ^ E| * 2 ^ E ≤ 1 / 2 * 2 ^ E :=
        mul_le_mul_of_nonneg_right herr (le_of_lt hu)
    _ = 2 ^ (qlog2 |x| - 53) := by
        rw [show (1 : ℚ) / 2 = 2 ^ (-1 : ℤ) by norm_num,
          ← zpow_add₀ (two_ne_zero : (2 : ℚ) ≠ 0)]
        congr 1
        omega

/-- The lower significand bound: rounding a positive value stays at or above
its binade's base. -/
theorem zpow_qlog2_le_fl (x : ℚ) (hx : 0 < x) : (2 : ℚ) ^ qlog2 x ≤ fl x := by
  rw [fl_of_ne x (ne_of_gt hx), abs_of_pos hx]
  set E : ℤ := qlog2 x - 52 with hE
  have hu : (0 : ℚ) < 2 ^ E := zpow_pos (by norm_num) _
  obtain ⟨hl, _⟩ := qlog2_spec x hx
  have hge : (2 : ℚ) ^ (52 : ℤ) ≤ x / 2 ^ E := by
    rw [le_div_iff₀ hu, ← zpow_add₀ (two_ne_zero : (2 : ℚ) ≠ 0)]
    calc (2 : ℚ) ^ (52 + E) = 2 ^ qlog2 x := by congr 1; omega
      _ ≤ x := hl
  have hfloor : (2 ^ 52 : ℤ) ≤ ⌊x / 2 ^ E⌋ := by
    apply Int.le_floor.mpr
    calc ((2 ^ 52 : ℤ) : ℚ) = 2 ^ (52 : ℤ) := by push_cast; norm_num
      _ ≤ x / 2 ^ E := hge
  have hrne : (2 ^ 52 : ℤ) ≤ rne (x / 2 ^ E) := le_trans hfloor (rne_ge_floor _)
  calc (2 : ℚ) ^ qlog2 x = 2 ^ (52 : ℤ) * 2 ^ E := by
        rw [← zpow_add₀ (two_ne_zero : (2 : ℚ) ≠ 0)]; congr 1; omega
    _ ≤ (rne (x / 2 ^ E) : ℚ) * 2 ^ E := by
        apply mul_le_mul_of_nonneg_right _ (le_of_lt hu)
        calc (2 : ℚ) ^ (52 : ℤ) = ((2 ^ 52 : ℤ) : ℚ) := by push_cast; norm_num
          _ ≤ (rne (x / 2 ^ E) : ℚ) := by exact_mod_cast hrne

/-- The upper significand bound: rounding a positive value stays at or below
its binade's top. -/
theorem fl_le_zpow (x : ℚ) (hx : 0 < x) : fl x ≤ 2 ^ (qlog2 x + 1) := by
  rw [fl_of_ne x (ne_of_gt hx), abs_of_pos hx]
  set E : ℤ := qlog2 x - 52 with hE
  have hu : (0 : ℚ) < 2 ^ E := zpow_pos (by norm_num) _
  obtain ⟨_, hr⟩ := qlog2_spec x hx
  have hlt : x / 2 ^ E < 2 ^ (53 : ℤ) := by
    rw [div_lt_iff₀ hu, ← zpow_add₀ (two_ne_zero : (2 : ℚ) ≠ 0)]
    calc x < 2 ^ (qlog2 x + 1) := hr
      _ = 2 ^ (53 + E) := by congr 1; omega
  have hceil : ⌈x / 2 ^ E⌉ ≤ 2 ^ 53 := by
    apply Int.ceil_le.mpr
    calc x / 2 ^ E ≤ 2 ^ (53 : ℤ) := le_of_lt hlt
      _ = ((2 ^ 53 : ℤ) : ℚ) := by push_cast; norm_num
  have hrne : rne (x / 2 ^ E) ≤ 2 ^ 53 := le_trans (rne_le_ceil _) hceil
  calc (rne (x / 2 ^ E) : ℚ) * 2 ^ E ≤ 2 ^ (53 : ℤ) * 2 ^ E := by
        apply mul_le_mul_of_nonneg_right _ (le_of_lt hu)
        calc (rne (x / 2 ^ E) : ℚ) ≤ ((2 ^ 53 : ℤ) : ℚ) := by exact_mod_cast hrne
          _ = (2 : ℚ) ^ (53 : ℤ) := by push_cast; norm_num
    _ = 2 ^ (qlog2 x + 1) := by
        rw [← zpow_add₀ (two_ne_zero : (2 : ℚ) ≠ 0)]; congr 1; omega

theorem fl_neg (x : ℚ) : fl (-x) = -fl x := by
  by_cases hx : x = 0
  · rw [hx]; rw [neg_zero, fl_zero, neg_zero]
  · rw [fl_of_ne x hx, fl_of_ne (-x) (neg_ne_zero.mpr hx), abs_neg, neg_div, rne_neg]
    push_cast
    ring

theorem fl_pos (x : ℚ) (hx : 0 < x) : 0 < fl x :=
  lt_of_lt_of_le (zpow_pos (by norm_num) (qlog2 x)) (zpow_qlog2_le_fl x hx)

theorem fl_mono_pos (x y : ℚ) (hx : 0 < x) (hxy : x ≤ y) : fl x ≤ fl y := by
  have hy : 0 < y := lt_of_lt_of_le hx hxy
  rcases lt_or_eq_of_le (qlog2_mono x y hx hxy) with hL | hL
  · calc fl x ≤ 2 ^ (qlog2 x + 1) := fl_le_zpow x hx
      _ ≤ 2 ^ qlog2 y := zpow_le_zpow_right₀ (by norm_num) (by omega)
      _ ≤ fl y := zpow_qlog2_le_fl y hy
  · rw [fl_of_ne x (ne_of_gt hx), fl_of_ne y (ne_of_gt hy),
      abs_of_pos hx, abs_of_pos hy, ← hL]
    have hu : (0 : ℚ) < 2 ^ (qlog2 x - 52) := zpow_pos (by norm_num) _
    apply mul_le_mul_of_nonneg_right _ (le_of_lt hu)
    have hdiv : x / 2 ^ (qlog2 x - 52) ≤ y / 2 ^ (qlog2 x - 52) := by gcongr
    exact_mod_cast rne_mono _ _ hdiv

theorem fl_neg_of_neg (x : ℚ) (hx : x < 0) : fl x < 0 := by
  have h1 : 0 < fl (-x) := fl_pos (-x) (by linarith)
  rw [fl_neg] at h1
  linarith

theorem fl_mono (x y : ℚ) (hxy : x ≤ y) : fl x ≤ fl y := by
  rcases lt_trichotomy x 0 with hx | hx | hx
  · rcases lt_trichotomy y 0 with hy | hy | hy
    · have h := fl_mono_pos (-y) (-x) (by linarith) (by linarith)
      rw [fl_neg, fl_neg] at h
      linarith
    · rw [hy, fl_zero]
      exact le_of_lt (fl_neg_of_neg x hx)
    · exact le_of_lt (lt_trans (fl_neg_of_neg x hx) (fl_pos y hy))
  · rw [hx, fl_zero]
    rcases lt_or_eq_of_le hxy with hy | hy
    · exact le_of_lt (fl_pos y (hx ▸ hy))
    · rw [← hy, hx, fl_zero]
  · exact fl_mono_pos x y hx hxy

/-- The divisor table only contains the 1m-cpu unit and the 1Mi unit. -/
theorem pricesUnit_cases (rn : ResourceName) (d : Quantity)
    (hd : PricesUnit rn = some d) : d = cpuUnit ∨ d = bin1Mi := by
  rw [PricesUnit] at hd
  split_ifs at hd <;>
    first
      | exact Or.inl (Option.some.inj hd).symm
      | exact Or.inr (Option.some.inj hd).symm
      | exact Option.noConfusion hd

theorem goInt64_of_abs_le (m : ℤ) (h : |m| ≤ 2 ^ 62) : goInt64 m = some m := by
  rcases abs_le.mp h with ⟨h1, h2⟩
  have hlt : (2 : ℤ) ^ 62 < 2 ^ 63 := by norm_num
  have hlt2 : -(2 : ℤ) ^ 63 ≤ -(2 ^ 62) := by norm_num
  have hcond : -(2 : ℤ) ^ 63 ≤ m ∧ m < 2 ^ 63 := ⟨by linarith, by linarith⟩
  rw [goInt64, if_pos hcond]

theorem goInt64_inj (m r : ℤ) (h : goInt64 m = some r) : m = r := by
  by_cases hc : -(2 : ℤ) ^ 63 ≤ m ∧ m < 2 ^ 63
  · rw [goInt64, if_pos hc] at h
    exact Option.some.inj h
  · rw [goInt64, if_neg hc] at h
    exact Option.noConfusion h

/-- Rounding a quotient of integers does not cross an integer boundary when
the rounding error is below `1/d`: the ceiling survives the float64
rounding. -/
theorem ceil_fl_div (v d : ℤ) (hd : 0 < d) (hv : |v| ≤ 2 ^ 53)
    (hne : (v : ℚ) / (d : ℚ) ≠ 0)
    (herr : (2 : ℚ) ^ (qlog2 |(v : ℚ) / (d : ℚ)| - 53) < 1 / (d : ℚ)) :
    ⌈fl ((v : ℚ) / (d : ℚ))⌉ = ⌈(v : ℚ) / (d : ℚ)⌉ := by
  have hdQ : (0 : ℚ) < (d : ℚ) := by exact_mod_cast hd
  by_cases hint : ∃ k : ℤ, (v : ℚ) / (d : ℚ) = (k : ℚ)
  · obtain ⟨k, hk⟩ := hint
    have hkabs : |k| ≤ 2 ^ 53 := by
      have h1 : |(k : ℚ)| ≤ |(v : ℚ)| := by
        rw [← hk, abs_div]
        have hd1 : (1 : ℚ) ≤ |(d : ℚ)| := by
          rw [abs_of_pos hdQ]; exact_mod_cast hd
        calc |(v : ℚ)| / |(d : ℚ)| ≤ |(v : ℚ)| / 1 := by
              apply div_le_div_of_nonneg_left (abs_nonneg _) (by norm_num) hd1
          _ = |(v : ℚ)| := div_one _
      have h2 : |(v : ℚ)| ≤ ((2 ^ 53 : ℤ) : ℚ) := by
        rw [← Int.cast_abs]; exact_mod_cast hv
      have h3 : |(k : ℚ)| ≤ ((2 ^ 53 : ℤ) : ℚ) := le_trans h1 h2
      rw [← Int.cast_abs] at h3
      exact_mod_cast h3
    rw [hk, fl_intCast k hkabs]
  · set x : ℚ := (v : ℚ) / (d : ℚ) with hx
    set n : ℤ := ⌈x⌉ with hn
    have hxn : x ≠ (n : ℚ) := fun hc => hint ⟨n, hc⟩
    have hlt : x < (n : ℚ) := lt_of_le_of_ne (Int.le_ceil x) hxn
    have hgt : (n : ℚ) - 1 < x := by
      have := Int.ceil_lt_add_one x
      push_cast at this ⊢
      linarith
    have hvn : v < n * d := by
      have h1 : (v : ℚ) < (n : ℚ) * (d : ℚ) := by
        rw [hx] at hlt
        exact (div_lt_iff₀ hdQ).mp hlt
      exact_mod_cast h1
    have hvn2 : (n - 1) * d < v := by
      have h1 : ((n : ℚ) - 1) * (d : ℚ) < (v : ℚ) := by
        rw [hx] at hgt
        exact (lt_div_iff₀ hdQ).mp hgt
      have h2 : ((n - 1 : ℤ) : ℚ) * (d : ℚ) < (v : ℚ) := by push_cast; linarith
      exact_mod_cast h2
    have hgapu : x + 1 / (d : ℚ) ≤ (n : ℚ) := by
      have h1 : (v : ℚ) + 1 ≤ (n : ℚ) * (d : ℚ) := by
        have : ((v + 1 : ℤ) : ℚ) ≤ ((n * d : ℤ) : ℚ) := by exact_mod_cast hvn
        push_cast at this
        linarith
      rw [hx, div_add_div_same, div_le_iff₀ hdQ]
      linarith
    have hgapl : (n : ℚ) - 1 ≤ x - 1 / (d : ℚ) := by
      have h1 : ((n : ℚ) - 1) * (d : ℚ) + 1 ≤ (v : ℚ) := by
        have h2 : (((n - 1) * d + 1 : ℤ) : ℚ) ≤ ((v : ℤ) : ℚ) := by
          exact_mod_cast hvn2
        push_cast at h2
        linarith
      rw [hx, div_sub_div_same, le_div_iff₀ hdQ]
      linarith
    have hxne0 : x ≠ 0 := hne
    have herr2 : |fl x - x| ≤ 2 ^ (qlog2 |x| - 53) := fl_err x hxne0
    rcases abs_le.mp herr2 with ⟨he1, he2⟩
    have hflu : fl x ≤ x + 2 ^ (qlog2 |x| - 53) := by linarith
    have hfll : x - 2 ^ (qlog2 |x| - 53) ≤ fl x := by linarith
    apply Int.ceil_eq_iff.mpr
    constructor
    · push_cast
      have h4 : x - 1 / (d : ℚ) < fl x := by linarith
      linarith
    · have h4 : fl x < x + 1 / (d : ℚ) := by linarith
      linarith

/-- On an in-range milli-value (|v| ≤ 2^53) the float64 pipeline of
`GetResourceValue` computes the exact integer ceiling of `v / d` for every
divisor of `PricesUnit`. -/
theorem getResourceValue_eq_ceil (rn : ResourceName) (d : Quantity)
    (res : ResourceName → Option QuantityDetail) (q : QuantityDetail)
    (hd : PricesUnit rn = some d) (hq : res rn = some q)
    (hv : |q.milli| ≤ 2 ^ 53) :
    GetResourceValue rn res = some ⌈(q.milli : ℚ) / (d.milli : ℚ)⌉ := by
  have hdm : d.milli = 1 ∨ d.milli = 2 ^ 20 * 1000 := by
    rcases pricesUnit_cases rn d hd with h | h <;> rw [h]
    · exact Or.inl rfl
    · exact Or.inr rfl
  unfold GetResourceValue
  rw [hq]
  show (if q.milli ≠ 0 then
      match PricesUnit rn with
      | some u => goInt64 ⌈fl (fl (q.milli : ℚ) / fl (u.milli : ℚ))⌉
      | none => none
    else some 0) = some ⌈(q.milli : ℚ) / (d.milli : ℚ)⌉
  by_cases hz : q.milli = 0
  · rw [if_neg fun hne => hne hz, hz]
    norm_num
  · rw [if_pos hz, hd]
    show goInt64 ⌈fl (fl (q.milli : ℚ) / fl (d.milli : ℚ))⌉
        = some ⌈(q.milli : ℚ) / (d.milli : ℚ)⌉
    have hflv : fl (q.milli : ℚ) = (q.milli : ℚ) := fl_intCast _ hv
    have hfld : fl (d.milli : ℚ) = (d.milli : ℚ) := by
      apply fl_intCast
      rcases hdm with h | h <;> rw [h] <;> decide
    rw [hflv, hfld]
    rcases hdm with h1 | h1
    · rw [h1]
      have hone : ((1 : ℤ) : ℚ) = 1 := by norm_num
      rw [hone, div_one, fl_intCast _ hv, Int.ceil_intCast]
      apply goInt64_of_abs_le
      calc |q.milli| ≤ 2 ^ 53 := hv
        _ ≤ 2 ^ 62 := by norm_num
    · rw [h1]
      have hdpos : (0 : ℤ) < 2 ^ 20 * 1000 := by norm_num
      have hdQ : (0 : ℚ) < ((2 ^ 20 * 1000 : ℤ) : ℚ) := by exact_mod_cast hdpos
      have hne : (q.milli : ℚ) / ((2 ^ 20 * 1000 : ℤ) : ℚ) ≠ 0 :=
        div_ne_zero (Int.cast_ne_zero.mpr hz) (ne_of_gt hdQ)
      have hxabs : |(q.milli : ℚ) / ((2 ^ 20 * 1000 : ℤ) : ℚ)| < 2 ^ (23 + 1 : ℤ) := by
        rw [abs_div, abs_of_pos hdQ, div_lt_iff₀ hdQ]
        have hvQ : |(q.milli : ℚ)| ≤ ((2 ^ 53 : ℤ) : ℚ) := by
          rw [← Int.cast_abs]; exact_mod_cast hv
        calc |(q.milli : ℚ)| ≤ ((2 ^ 53 : ℤ) : ℚ) := hvQ
          _ < 2 ^ (23 + 1 : ℤ) * ((2 ^ 20 * 1000 : ℤ) : ℚ) := by
              rw [show (23 + 1 : ℤ) = ((24 : ℕ) : ℤ) by norm_num, zpow_natCast]
              push_cast
              norm_num
      have hqlog : qlog2 |(q.milli : ℚ) / ((2 ^ 20 * 1000 : ℤ) : ℚ)| ≤ 23 :=
        qlog2_le_of_lt _ 23 (abs_pos.mpr hne) hxabs
      have herr : (2 : ℚ) ^ (qlog2 |(q.milli : ℚ) / ((2 ^ 20 * 1000 : ℤ) : ℚ)| - 53)
          < 1 / ((2 ^ 20 * 1000 : ℤ) : ℚ) := by
        calc (2 : ℚ) ^ (qlog2 |(q.milli : ℚ) / ((2 ^ 20 * 1000 : ℤ) : ℚ)| - 53)
            ≤ 2 ^ (-30 : ℤ) := zpow_le_zpow_right₀ (by norm_num) (by omega)
          _ < 1 / ((2 ^ 20 * 1000 : ℤ) : ℚ) := by
              rw [show (-30 : ℤ) = -((30 : ℕ) : ℤ) by norm_num, zpow_neg, zpow_natCast]
              push_cast
              rw [one_div, inv_lt_inv₀ (by norm_num) (by norm_num)]
              norm_num
      rw [ceil_fl_div q.milli (2 ^ 20 * 1000) hdpos hv hne herr]
      apply goInt64_of_abs_le
      have hb := abs_lt.mp hxabs
      have h1c := Int.ceil_lt_add_one ((q.milli : ℚ) / ((2 ^ 20 * 1000 : ℤ) : ℚ))
      have h2c := Int.le_ceil ((q.milli : ℚ) / ((2 ^ 20 * 1000 : ℤ) : ℚ))
      have hp24 : (2 : ℚ) ^ (23 + 1 : ℤ) = ((2 ^ 24 : ℤ) : ℚ) := by
        rw [show (23 + 1 : ℤ) = ((24 : ℕ) : ℤ) by norm_num, zpow_natCast]
        push_cast
        norm_num
      rw [hp24] at hb
      have hup : (⌈(q.milli : ℚ) / ((2 ^ 20 * 1000 : ℤ) : ℚ)⌉ : ℚ)
          < ((2 ^ 24 : ℤ) : ℚ) + 1 := by linarith [hb.2]
      have hlo : (((-(2 ^ 24) : ℤ)) : ℚ)
          < (⌈(q.milli : ℚ) / ((2 ^ 20 * 1000 : ℤ) : ℚ)⌉ : ℚ) := by
        push_cast
        linarith [hb.1]
      have hupZ : ⌈(q.milli : ℚ) / ((2 ^ 20 * 1000 : ℤ) : ℚ)⌉ < 2 ^ 24 + 1 := by
        have hcast : ((2 ^ 24 : ℤ) : ℚ) + 1 = ((2 ^ 24 + 1 : ℤ) : ℚ) := by push_cast; ring
        rw [hcast] at hup
        exact_mod_cast hup
      have hloZ : -(2 ^ 24) < ⌈(q.milli : ℚ) / ((2 ^ 20 * 1000 : ℤ) : ℚ)⌉ := by
        exact_mod_cast hlo
      rw [abs_le]
      constructor
      · have hc : -(2 : ℤ) ^ 62 ≤ -(2 ^ 24) := by norm_num
        omega
      · have hc : (2 : ℤ) ^ 24 + 1 ≤ 2 ^ 62 := by norm_num
        omega

theorem rne_int_add_small (m : ℤ) (r : ℚ) (h0 : 0 ≤ r) (h1 : r < 1 / 2) :
    rne ((m : ℚ) + r) = m := by
  have hfr : Int.fract ((m : ℚ) + r) = r := by
    rw [Int.fract_int_add, Int.fract_eq_self.mpr ⟨h0, by linarith⟩]
  have hfl : ⌊(m : ℚ) + r⌋ = m := by
    rw [Int.floor_int_add, Int.floor_eq_zero_iff.mpr ⟨h0, by linarith⟩, add_zero]
  rw [rne, hfr, if_pos h1, hfl]

/-- The value `2^55 + 2` is the midpoint-free example: its float64 value is `2^55`
(the nearest representable), two below the exact value. -/
theorem fl_big_in : fl (36028797018963970 : ℚ) = 36028797018963968 := by
  have hpos : (0 : ℚ) < 36028797018963970 := by norm_num
  have habs : |(36028797018963970 : ℚ)| = 36028797018963970 := abs_of_pos hpos
  have hq : qlog2 (36028797018963970 : ℚ) = 55 := by
    apply qlog2_eq
    · rw [show (55 : ℤ) = ((55 : ℕ) : ℤ) by norm_num, zpow_natCast]
      norm_num
    · rw [show (55 + 1 : ℤ) = ((56 : ℕ) : ℤ) by norm_num, zpow_natCast]
      norm_num
  rw [fl_of_ne _ (by norm_num), habs, hq,
    show (55 - 52 : ℤ) = 3 by norm_num]
  have h8 : (2 : ℚ) ^ (3 : ℤ) = 8 := by
    rw [show (3 : ℤ) = ((3 : ℕ) : ℤ) by norm_num, zpow_natCast]
    norm_num
  rw [h8]
  have hy : (36028797018963970 : ℚ) / 8 = ((4503599627370496 : ℤ) : ℚ) + 1 / 4 := by
    push_cast
    norm_num
  rw [hy, rne_int_add_small 4503599627370496 (1 / 4) (by norm_num) (by norm_num)]
  push_cast
  norm_num

/-- The value `2^55` is exactly representable in float64: rounding it is exact. -/
theorem fl_big_out : fl (36028797018963968 : ℚ) = 36028797018963968 := by
  have h8 : (2 : ℚ) ^ (3 : ℤ) = 8 := by
    rw [show (3 : ℤ) = ((3 : ℕ) : ℤ) by norm_num, zpow_natCast]
    norm_num
  have hrepr : (36028797018963968 : ℚ) = ((4503599627370496 : ℤ) : ℚ) * 2 ^ (3 : ℤ) := by
    rw [h8]
    push_cast
    norm_num
  rw [hrepr, fl_dyadic 4503599627370496 3 (by decide)]

/-- Counterexample to claim C2 as stated: the arithmetic is float64, not
integer-only, so the exact ceiling is lost for large int64 milli-values.
For a CPU quantity with milli-value `2^55 + 2 = 36028797018963970` and
divisor `1m`, the code returns `2^55 = 36028797018963968`, while the exact
integer ceiling of `v / d` is `36028797018963970`. -/
theorem c2_ceiling_cex :
    GetResourceValue (str "cpu")
        (fun rn => if rn = str "cpu" then
          some { milli := 36028797018963970, Detail := [] } else none)
      = some 36028797018963968
    ∧ (36028797018963968 : ℤ)
        ≠ ⌈((36028797018963970 : ℤ) : ℚ) / ((1 : ℤ) : ℚ)⌉ := by
  constructor
  · have hq : (fun rn => if rn = str "cpu" then
          some ({ milli := 36028797018963970, Detail := [] } : QuantityDetail)
        else none) (str "cpu")
        = some ({ milli := 36028797018963970, Detail := [] } : QuantityDetail) := by
      simp
    unfold GetResourceValue
    rw [hq]
    show (if (36028797018963970 : ℤ) ≠ 0 then
        match PricesUnit (str "cpu") with
        | some u => goInt64 ⌈fl (fl ((36028797018963970 : ℤ) : ℚ) / fl (u.milli : ℚ))⌉
        | none => none
      else some 0) = some 36028797018963968
    rw [if_pos (by norm_num : (36028797018963970 : ℤ) ≠ 0)]
    rw [show PricesUnit (str "cpu") = some cpuUnit from rfl]
    show goInt64 ⌈fl (fl ((36028797018963970 : ℤ) : ℚ) / fl ((1 : ℤ) : ℚ))⌉
        = some 36028797018963968
    rw [show ((36028797018963970 : ℤ) : ℚ) = (36028797018963970 : ℚ) by push_cast; rfl]
    rw [show ((1 : ℤ) : ℚ) = 1 by push_cast; rfl]
    rw [fl_big_in, show (1 : ℚ) = ((1 : ℤ) : ℚ) by push_cast; rfl,
      fl_intCast 1 (by decide)]
    rw [show ((1 : ℤ) : ℚ) = 1 by push_cast; rfl, div_one, fl_big_out]
    rw [show (36028797018963968 : ℚ) = ((36028797018963968 : ℤ) : ℚ) by push_cast; rfl,
      Int.ceil_intCast]
    apply goInt64_of_abs_le
    rw [abs_of_nonneg (by norm_num : (0 : ℤ) ≤ 36028797018963968)]
    norm_num
  · rw [show ((1 : ℤ) : ℚ) = 1 by push_cast; rfl, div_one, Int.ceil_intCast]
    norm_num

/-- Claim C2 (amended): the division is computed in float64, so the exact
integer ceiling is only guaranteed on the float64-exact range.  For every
resource kind with divisor `d` in `PricesUnit` and every present quantity
whose milli-value `v` satisfies `|v| ≤ 2^53`, `GetResourceValue` returns
exactly `ceil(v / d)` (e.g. CPU `1500m` with divisor `1m` gives 1500;
memory `10Mi` plus one byte with divisor `1Mi` gives 11), and it returns 0
when the quantity is absent or its milli-value is zero. -/
theorem c2_ceiling (rn : ResourceName) (d : Quantity)
    (res : ResourceName → Option QuantityDetail)
    (hd : PricesUnit rn = some d) :
    (∀ q : QuantityDetail, res rn = some q → |q.milli| ≤ 2 ^ 53 →
      GetResourceValue rn res = some ⌈(q.milli : ℚ) / (d.milli : ℚ)⌉)
    ∧ (res rn = none → GetResourceValue rn res = some 0) := by
  constructor
  · intro q hq hv
    exact getResourceValue_eq_ceil rn d res q hd hq hv
  · intro hnone
    unfold GetResourceValue
    rw [hnone]

/-- Witness for C2 at the spec's concrete examples: CPU `1500m` (milli 1500,
divisor milli 1) gives 1500; memory `10Mi + 1 byte` (milli 10485761000,
divisor milli 1048576000) gives 11; a missing quantity gives 0. -/
theorem c2_ceiling_w :
    GetResourceValue (str "cpu")
        (fun rn => if rn = str "cpu" then
          some { milli := 1500, Detail := [] } else none)
      = some 1500
    ∧ GetResourceValue (str "memory")
        (fun rn => if rn = str "memory" then
          some { milli := 10485761000, Detail := [] } else none)
      = some 11
    ∧ GetResourceValue (str "network") (fun _ => none) = some 0 := by
  refine ⟨?_, ?_, ?_⟩
  · have h := (c2_ceiling (str "cpu") cpuUnit
      (fun rn => if rn = str "cpu" then
        some { milli := 1500, Detail := [] } else none) rfl).1
      { milli := 1500, Detail := [] } (by simp) (by decide)
    rw [h]
    congr 1
    rw [show ((1500 : ℤ) : ℚ) = 1500 by push_cast; rfl]
    rw [show ((cpuUnit.milli : ℤ) : ℚ) = 1 by push_cast; rfl, div_one]
    rw [show (1500 : ℚ) = ((1500 : ℤ) : ℚ) by push_cast; rfl, Int.ceil_intCast]
  · have h := (c2_ceiling (str "memory") bin1Mi
      (fun rn => if rn = str "memory" then
        some { milli := 10485761000, Detail := [] } else none) rfl).1
      { milli := 10485761000, Detail := [] } (by simp) (by decide)
    rw [h]
    congr 1
    rw [show ((10485761000 : ℤ) : ℚ) = 10485761000 by push_cast; rfl]
    rw [show ((bin1Mi.milli : ℤ) : ℚ) = 1048576000 by push_cast; rfl]
    rw [Int.ceil_eq_iff]
    constructor
    · push_cast
      norm_num
    · push_cast
      norm_num
  · exact (c2_ceiling (str "network") bin1Mi (fun _ => none) rfl).2 rfl

theorem getResourceValue_none (rn : ResourceName)
    (res : ResourceName → Option QuantityDetail) (h : res rn = none) :
    GetResourceValue rn res = some 0 := by
  unfold GetResourceValue
  rw [h]

theorem getResourceValue_zero (rn : ResourceName)
    (res : ResourceName → Option QuantityDetail) (q : QuantityDetail)
    (hq : res rn = some q) (hz : q.milli = 0) :
    GetResourceValue rn res = some 0 := by
  unfold GetResourceValue
  rw [hq]
  show (if q.milli ≠ 0 then
      match PricesUnit rn with
      | some u => goInt64 ⌈fl (fl (q.milli : ℚ) / fl (u.milli : ℚ))⌉
      | none => none
    else some 0) = some 0
  rw [if_neg fun hne => hne hz]

theorem getResourceValue_unfold (rn : ResourceName) (d : Quantity)
    (res : ResourceName → Option QuantityDetail) (q : QuantityDetail)
    (hd : PricesUnit rn = some d) (hq : res rn = some q) (hz : q.milli ≠ 0) :
    GetResourceValue rn res = goInt64 ⌈fl (fl (q.milli : ℚ) / fl (d.milli : ℚ))⌉ := by
  unfold GetResourceValue
  rw [hq]
  show (if q.milli ≠ 0 then
      match PricesUnit rn with
      | some u => goInt64 ⌈fl (fl (q.milli : ℚ) / fl (u.milli : ℚ))⌉
      | none => none
    else some 0) = goInt64 ⌈fl (fl (q.milli : ℚ) / fl (d.milli : ℚ))⌉
  rw [if_pos hz, hd]

/-- Claim C7: for every supported resource kind, `GetResourceValue` is
monotonic in the quantity's milli-value (whenever both results are defined,
i.e. the float-to-int64 conversion is in range), and yields 0 for a missing
quantity and for a zero quantity. -/
theorem c7_monotonic (rn : ResourceName) (d : Quantity)
    (hd : PricesUnit rn = some d) :
    (∀ res : ResourceName → Option QuantityDetail, res rn = none →
      GetResourceValue rn res = some 0)
    ∧ (∀ (res : ResourceName → Option QuantityDetail) (q : QuantityDetail),
        res rn = some q → q.milli = 0 → GetResourceValue rn res = some 0)
    ∧ (∀ (res1 res2 : ResourceName → Option QuantityDetail)
        (q1 q2 : QuantityDetail) (r1 r2 : ℤ),
        res1 rn = some q1 → res2 rn = some q2 → q1.milli ≤ q2.milli →
        GetResourceValue rn res1 = some r1 → GetResourceValue rn res2 = some r2 →
        r1 ≤ r2) := by
  have hdm : d.milli = 1 ∨ d.milli = 2 ^ 20 * 1000 := by
    rcases pricesUnit_cases rn d hd with h | h <;> rw [h]
    · exact Or.inl rfl
    · exact Or.inr rfl
  have hdQ : (0 : ℚ) < (d.milli : ℚ) := by
    rcases hdm with h | h <;> rw [h] <;> norm_num
  refine ⟨fun res h => getResourceValue_none rn res h,
    fun res q hq hz => getResourceValue_zero rn res q hq hz, ?_⟩
  intro res1 res2 q1 q2 r1 r2 h1 h2 hle hr1 hr2
  by_cases hz1 : q1.milli = 0
  · rw [getResourceValue_zero rn res1 q1 h1 hz1] at hr1
    have hr1v : (0 : ℤ) = r1 := Option.some.inj hr1
    by_cases hz2 : q2.milli = 0
    · rw [getResourceValue_zero rn res2 q2 h2 hz2] at hr2
      have hr2v : (0 : ℤ) = r2 := Option.some.inj hr2
      omega
    · have hq2pos : 0 < q2.milli := lt_of_le_of_ne (hz1 ▸ hle) (Ne.symm hz2)
      rw [getResourceValue_unfold rn d res2 q2 hd h2 hz2] at hr2
      have hr2v := goInt64_inj _ _ hr2
      have hpos : (0 : ℚ) < fl (fl (q2.milli : ℚ) / fl (d.milli : ℚ)) := by
        apply fl_pos
        exact div_pos (fl_pos _ (by exact_mod_cast hq2pos)) (fl_pos _ hdQ)
      have hc := Int.ceil_pos.mpr hpos
      omega
  · by_cases hz2 : q2.milli = 0
    · have hq1neg : q1.milli < 0 := lt_of_le_of_ne (hz2 ▸ hle) hz1
      rw [getResourceValue_zero rn res2 q2 h2 hz2] at hr2
      have hr2v : (0 : ℤ) = r2 := Option.some.inj hr2
      rw [getResourceValue_unfold rn d res1 q1 hd h1 hz1] at hr1
      have hr1v := goInt64_inj _ _ hr1
      have hneg : fl (fl (q1.milli : ℚ) / fl (d.milli : ℚ)) < 0 := by
        apply fl_neg_of_neg
        exact div_neg_of_neg_of_pos (fl_neg_of_neg _ (by exact_mod_cast hq1neg))
          (fl_pos _ hdQ)
      have hc : ⌈fl (fl (q1.milli : ℚ) / fl (d.milli : ℚ))⌉ ≤ 0 := by
        apply Int.ceil_le.mpr
        push_cast
        linarith
      omega
    · rw [getResourceValue_unfold rn d res1 q1 hd h1 hz1] at hr1
      rw [getResourceValue_unfold rn d res2 q2 hd h2 hz2] at hr2
      have hr1v := goInt64_inj _ _ hr1
      have hr2v := goInt64_inj _ _ hr2
      have hfl1 : fl (q1.milli : ℚ) ≤ fl (q2.milli : ℚ) :=
        fl_mono _ _ (by exact_mod_cast hle)
      have hD : (0 : ℚ) < fl (d.milli : ℚ) := fl_pos _ hdQ
      have hdiv : fl (q1.milli : ℚ) / fl (d.milli : ℚ)
          ≤ fl (q2.milli : ℚ) / fl (d.milli : ℚ) := by gcongr
      have hfl2 := fl_mono _ _ hdiv
      have hc := Int.ceil_le_ceil hfl2
      omega

/-- Witness for C7 at concrete inputs: CPU quantities `500m` and `1500m`
give 500 and 1500, and the theorem orders them. -/
theorem c7_monotonic_w :
    GetResourceValue (str "cpu")
        (fun rn => if rn = str "cpu" then
          some { milli := 500, Detail := [] } else none)
      = some 500
    ∧ GetResourceValue (str "cpu")
        (fun rn => if rn = str "cpu" then
          some { milli := 1500, Detail := [] } else none)
      = some 1500
    ∧ (500 : ℤ) ≤ 1500 := by
  have h500 : GetResourceValue (str "cpu")
      (fun rn => if rn = str "cpu" then
        some { milli := 500, Detail := [] } else none)
      = some 500 := by
    have h := getResourceValue_eq_ceil (str "cpu") cpuUnit
      (fun rn => if rn = str "cpu" then
        some { milli := 500, Detail := [] } else none)
      { milli := 500, Detail := [] } rfl (by simp) (by decide)
    rw [h]
    congr 1
    rw [show ((500 : ℤ) : ℚ) = 500 by push_cast; rfl]
    rw [show ((cpuUnit.milli : ℤ) : ℚ) = 1 by push_cast; rfl, div_one]
    rw [show (500 : ℚ) = ((500 : ℤ) : ℚ) by push_cast; rfl, Int.ceil_intCast]
  have h1500 : GetResourceValue (str "cpu")
      (fun rn => if rn = str "cpu" then
        some { milli := 1500, Detail := [] } else none)
      = some 1500 := by
    have h := getResourceValue_eq_ceil (str "cpu") cpuUnit
      (fun rn => if rn = str "cpu" then
        some { milli := 1500, Detail := [] } else none)
      { milli := 1500, Detail := [] } rfl (by simp) (by decide)
    rw [h]
    congr 1
    rw [show ((1500 : ℤ) : ℚ) = 1500 by push_cast; rfl]
    rw [show ((cpuUnit.milli : ℤ) : ℚ) = 1 by push_cast; rfl, div_one]
    rw [show (1500 : ℚ) = ((1500 : ℤ) : ℚ) by push_cast; rfl, Int.ceil_intCast]
  refine ⟨h500, h1500, ?_⟩
  exact (c7_monotonic (str "cpu") cpuUnit rfl).2.2 _ _
    { milli := 500, Detail := [] } { milli := 1500, Detail := [] } 500 1500
    (by simp) (by simp) (by norm_num) h500 h1500

/-- Claim C10: a resource name with no entry in `PricesUnit` (for example
the prefixed GPU name `gpu-tesla-v100`, since `PricesUnit` is keyed by
exact name) makes `GetResourceValue` dereference a nil divisor pointer
(modelled `none`) whenever a quantity with non-zero milli-value is present;
the error branch is reachable, so membership of the resource kind in
`PricesUnit` is a necessary precondition for totality. -/
theorem c10_missing_divisor :
    (∀ (rn : ResourceName) (res : ResourceName → Option QuantityDetail)
        (q : QuantityDetail), PricesUnit rn = none → res rn = some q →
        q.milli ≠ 0 → GetResourceValue rn res = none)
    ∧ PricesUnit (str "gpu-tesla-v100") = none := by
  constructor
  · intro rn res q hnone hq hz
    unfold GetResourceValue
    rw [hq]
    show (if q.milli ≠ 0 then
        match PricesUnit rn with
        | some u => goInt64 ⌈fl (fl (q.milli : ℚ) / fl (u.milli : ℚ))⌉
        | none => none
      else some 0) = none
    rw [if_pos hz, hnone]
  · decide

theorem c10_missing_divisor_w :
    GetResourceValue (str "gpu-tesla-v100")
        (fun rn => if rn = str "gpu-tesla-v100" then
          some { milli := 1000, Detail := [] } else none)
      = none :=
  c10_missing_divisor.1 (str "gpu-tesla-v100") _ { milli := 1000, Detail := [] }
    (by decide) (by simp) (by norm_num)
